import Mathlib

set_option maxRecDepth 8000

/-!
Verification of the CELL coordinate codec (sashite/cell.js).

The development shallowly embeds the library's TypeScript sources:
`constants.ts`, `errors.ts`, `coordinate.ts`, `parser.ts` and `formatter.ts`.
Strings are modeled as lists of UTF-16 code units (`List Nat`), exactly what
the source observes through `charCodeAt`; JavaScript numbers that reach the
validation code are modeled by `JSNum` (an integer, or some value on which
`Number.isInteger` is false); fallible operations return `Except JSError`.
-/

namespace Cell

/-- Maximum number of dimensions supported by a CELL coordinate (constants.ts). -/
def MAX_DIMENSIONS : Nat := 3

/-- Maximum value for a single coordinate index (constants.ts). -/
def MAX_INDEX_VALUE : Int := 255

/-- Maximum length of a CELL string representation (constants.ts). -/
def MAX_STRING_LENGTH : Nat := 7

/-- The error message constants of errors.ts, as a closed enumeration. -/
inductive ErrorMsg
  | emptyInput
  | inputTooLong
  | invalidStart
  | unexpectedCharacter
  | leadingZero
  | tooManyDimensions
  | indexOutOfRange
  | noIndices
  deriving DecidableEq, Repr

/-- Errors thrown by the library: `CellError` (errors.ts) for parsing and
construction failures, and the built-in `RangeError` thrown by
`Coordinate.at` (coordinate.ts). -/
inductive JSError
  | cellError (msg : ErrorMsg)
  | rangeError
  deriving DecidableEq, Repr

/-- A JavaScript number argument as far as this library observes it: either an
integral value, or some value on which `Number.isInteger` returns false
(NaN, plus or minus Infinity, or a non-integral finite number such as 1.5). -/
inductive JSNum
  | int (n : Int)
  | nonIntegral
  deriving DecidableEq, Repr

/-- Number.isInteger on a `JSNum`. -/
def JSNum.isInteger : JSNum → Bool
  | .int _ => true
  | .nonIntegral => false

/-- The integral value carried by a `JSNum` (0 in the `nonIntegral` case,
which every caller rules out beforehand via `isInteger`). -/
def JSNum.toInt : JSNum → Int
  | .int n => n
  | .nonIntegral => 0

/-- Negation of the per-index rejection test of the Coordinate constructor
(coordinate.ts): `!Number.isInteger(index) || index < 0 || index > MAX_INDEX_VALUE`. -/
def isValidIndex : JSNum → Bool
  | .int n => decide (0 ≤ n) && decide (n ≤ MAX_INDEX_VALUE)
  | .nonIntegral => false

/-- encodeToLower (coordinate.ts): an index 0-255 as lowercase letters.
`Math.floor` of a nonnegative quotient is integer division. -/
def encodeToLower (index : Int) : List Nat :=
  if index < 26 then
    [(97 + index).toNat]
  else
    let adjusted := index - 26
    [(97 + adjusted / 26).toNat, (97 + adjusted % 26).toNat]

/-- encodeToUpper (coordinate.ts): an index 0-255 as uppercase letters. -/
def encodeToUpper (index : Int) : List Nat :=
  if index < 26 then
    [(65 + index).toNat]
  else
    let adjusted := index - 26
    [(65 + adjusted / 26).toNat, (65 + adjusted % 26).toNat]

/-- Big-endian decimal digit code units of `n`, with an explicit recursion
depth `fuel`: any fuel with `n < 10 ^ fuel` computes the full representation
(`[]` for 0, matching `Number.prototype.toString` on no positive number). -/
def toDecimal (fuel : Nat) (n : Nat) : List Nat :=
  match fuel with
  | 0 => []
  | fuel' + 1 => if n = 0 then [] else toDecimal fuel' (n / 10) ++ [n % 10 + 48]

/-- encodeToNumber (coordinate.ts): `(index + 1).toString()`, the decimal
representation of the 1-based value; depth 8 covers every value the library
can produce (at most 3 digits). -/
def encodeToNumber (index : Int) : List Nat :=
  toDecimal 8 (index + 1).toNat

/-- The backing field `#indices` of a Coordinate (coordinate.ts). -/
structure Coordinate where
  indices : List Int
  deriving DecidableEq, Repr

/-- The Coordinate constructor (coordinate.ts): validates the argument list
and stores a copy. The source throws INDEX_OUT_OF_RANGE at the first
offending index inside a loop; since every offender yields the same error,
this equals a whole-list test. -/
def Coordinate.make (xs : List JSNum) : Except JSError Coordinate :=
  if xs.length = 0 then
    .error (.cellError .noIndices)
  else if MAX_DIMENSIONS < xs.length then
    .error (.cellError .tooManyDimensions)
  else if xs.all isValidIndex then
    .ok ⟨xs.map JSNum.toInt⟩
  else
    .error (.cellError .indexOutOfRange)

/-- The `dimensions` getter (coordinate.ts). -/
def Coordinate.dimensions (c : Coordinate) : Nat :=
  c.indices.length

/-- Coordinate.at (coordinate.ts): bounds-checked indexed access, throwing
`RangeError` (not `CellError`) on a non-integer or out-of-bounds argument. -/
def Coordinate.at (c : Coordinate) (i : JSNum) : Except JSError Int :=
  if i.isInteger = false then
    .error .rangeError
  else if i.toInt < 0 ∨ (c.indices.length : Int) ≤ i.toInt then
    .error .rangeError
  else
    .ok (c.indices.getD i.toInt.toNat 0)

/-- One arm of the switch on `dim % 3` in Coordinate.toString (coordinate.ts). -/
def encodeDim (dim : Nat) (index : Int) : List Nat :=
  match dim % 3 with
  | 0 => encodeToLower index
  | 1 => encodeToNumber index
  | _ => encodeToUpper index

/-- The result-accumulation loop of Coordinate.toString, from dimension
`dim` onwards. -/
def encodeFrom (dim : Nat) : List Int → List Nat
  | [] => []
  | index :: rest => encodeDim dim index ++ encodeFrom (dim + 1) rest

/-- Coordinate.toString (coordinate.ts). -/
def Coordinate.toString (c : Coordinate) : List Nat :=
  encodeFrom 0 c.indices

/-- format (formatter.ts): `new Coordinate(...indices).toString()`. -/
def format (xs : List JSNum) : Except JSError (List Nat) :=
  (Coordinate.make xs).map Coordinate.toString

/-- isLowercase (parser.ts), on UTF-16 code units. -/
def isLowercase (charCode : Nat) : Bool :=
  97 ≤ charCode && charCode ≤ 122

/-- isUppercase (parser.ts). -/
def isUppercase (charCode : Nat) : Bool :=
  65 ≤ charCode && charCode ≤ 90

/-- isDigit (parser.ts). -/
def isDigit (charCode : Nat) : Bool :=
  48 ≤ charCode && charCode ≤ 57

/-- The expected-alphabet state of the parse loop (parser.ts, DimensionType). -/
inductive DimensionType
  | Lowercase
  | Integer
  | Uppercase
  deriving DecidableEq, Repr

/-- decodeLowercase (parser.ts). With two or more letters only the first two
are read, exactly as `chars[0]` / `chars[1]` in the source. Runs handed to
this function are never empty; the `[]` arm is dead code. -/
def decodeLowercase (chars : List Nat) : Int :=
  match chars with
  | [] => 0
  | [c] => (c : Int) - 97
  | c1 :: c2 :: _ => 26 + ((c1 : Int) - 97) * 26 + ((c2 : Int) - 97)

/-- decodeUppercase (parser.ts); same shape as decodeLowercase. -/
def decodeUppercase (chars : List Nat) : Int :=
  match chars with
  | [] => 0
  | [c] => (c : Int) - 65
  | c1 :: c2 :: _ => 26 + ((c1 : Int) - 65) * 26 + ((c2 : Int) - 65)

/-- decodeInteger (parser.ts): accumulates the digits, then converts the
1-based value to a 0-based index. -/
def decodeInteger (chars : List Nat) : Int :=
  chars.foldl (fun (value : Int) (c : Nat) => value * 10 + ((c : Int) - 48)) 0 - 1

/-- The while loop of parse (parser.ts), on the input remaining after the
cursor. Each iteration consumes at least one character and appends exactly
one index, and the dimension-limit guard rejects any state with three
decoded indices and input left, so starting from `MAX_DIMENSIONS + 1` the
fuel is never exhausted; the fuel-0 arm is dead code and repeats the
guard's error. -/
def parseLoop : Nat → List Nat → DimensionType → List Int → Except JSError (List Int)
  | _, [], _, indices => .ok indices
  | 0, _ :: _, _, _ => .error (.cellError .tooManyDimensions)
  | fuel + 1, charCode :: rest, expectedType, indices =>
    if MAX_DIMENSIONS ≤ indices.length then
      .error (.cellError .tooManyDimensions)
    else
      match expectedType with
      | .Lowercase =>
        if isLowercase charCode = false then
          .error (.cellError .unexpectedCharacter)
        else
          let chars := charCode :: rest.takeWhile isLowercase
          let index := decodeLowercase chars
          if MAX_INDEX_VALUE < index then
            .error (.cellError .indexOutOfRange)
          else
            parseLoop fuel (rest.dropWhile isLowercase) .Integer (indices ++ [index])
      | .Integer =>
        if isDigit charCode = false then
          .error (.cellError .unexpectedCharacter)
        else if charCode = 48 then
          .error (.cellError .leadingZero)
        else
          let chars := charCode :: rest.takeWhile isDigit
          let index := decodeInteger chars
          if index < 0 ∨ MAX_INDEX_VALUE < index then
            .error (.cellError .indexOutOfRange)
          else
            parseLoop fuel (rest.dropWhile isDigit) .Uppercase (indices ++ [index])
      | .Uppercase =>
        if isUppercase charCode = false then
          .error (.cellError .unexpectedCharacter)
        else
          let chars := charCode :: rest.takeWhile isUppercase
          let index := decodeUppercase chars
          if MAX_INDEX_VALUE < index then
            .error (.cellError .indexOutOfRange)
          else
            parseLoop fuel (rest.dropWhile isUppercase) .Lowercase (indices ++ [index])

/-- parse (parser.ts): length checks, first-character check, then the loop,
then Coordinate construction from the collected indices. -/
def parse (s : List Nat) : Except JSError Coordinate :=
  if s.length = 0 then
    .error (.cellError .emptyInput)
  else if MAX_STRING_LENGTH < s.length then
    .error (.cellError .inputTooLong)
  else if isLowercase (s.headD 0) = false then
    .error (.cellError .invalidStart)
  else
    match parseLoop (MAX_DIMENSIONS + 1) s .Lowercase [] with
    | .error e => .error e
    | .ok indices => Coordinate.make (indices.map JSNum.int)

/-- validate (parser.ts): parse, discarding the value. -/
def validate (s : List Nat) : Except JSError Unit :=
  (parse s).map fun _ => ()

/-- isValid (parser.ts): the try/catch around parse, as a total Boolean. -/
def isValid (s : List Nat) : Bool :=
  match parse s with
  | .ok _ => true
  | .error _ => false

instance {ε α : Type} [DecidableEq ε] [DecidableEq α] : DecidableEq (Except ε α) := fun x y =>
  match x, y with
  | .ok a, .ok b =>
    if h : a = b then isTrue (by rw [h]) else isFalse (by intro hc; cases hc; exact h rfl)
  | .ok _, .error _ => isFalse (by intro hc; cases hc)
  | .error _, .ok _ => isFalse (by intro hc; cases hc)
  | .error e, .error f =>
    if h : e = f then isTrue (by rw [h]) else isFalse (by intro hc; cases hc; exact h rfl)

/-- A nonempty run of lowercase letters. -/
def runLower (r : List Nat) : Prop :=
  r ≠ [] ∧ ∀ ch ∈ r, isLowercase ch = true

/-- A nonempty run of decimal digits with no leading zero. -/
def runDigit (r : List Nat) : Prop :=
  r ≠ [] ∧ (∀ ch ∈ r, isDigit ch = true) ∧ r.headD 0 ≠ 48

/-- A nonempty run of uppercase letters. -/
def runUpper (r : List Nat) : Prop :=
  r ≠ [] ∧ ∀ ch ∈ r, isUppercase ch = true

/-- Holds when the string has no three consecutive lowercase letters and no
three consecutive uppercase letters, i.e. every maximal letter run is at
most two characters long. -/
def shortLetterRuns : List Nat → Bool
  | a :: b :: c :: rest =>
    (!(isLowercase a && isLowercase b && isLowercase c) &&
      !(isUppercase a && isUppercase b && isUppercase c)) &&
      shortLetterRuns (b :: c :: rest)
  | _ => true

/-! ## Character-class facts -/

theorem digit_not_lower {ch : Nat} (h : isDigit ch = true) : isLowercase ch = false := by
  simp only [isDigit, Bool.and_eq_true, decide_eq_true_eq] at h
  simp only [isLowercase, Bool.and_eq_false_iff, decide_eq_false_iff_not]
  omega

theorem upper_not_digit {ch : Nat} (h : isUppercase ch = true) : isDigit ch = false := by
  simp only [isUppercase, Bool.and_eq_true, decide_eq_true_eq] at h
  simp only [isDigit, Bool.and_eq_false_iff, decide_eq_false_iff_not]
  omega

theorem upper_not_lower {ch : Nat} (h : isUppercase ch = true) : isLowercase ch = false := by
  simp only [isUppercase, Bool.and_eq_true, decide_eq_true_eq] at h
  simp only [isLowercase, Bool.and_eq_false_iff, decide_eq_false_iff_not]
  omega

theorem lower_not_digit {ch : Nat} (h : isLowercase ch = true) : isDigit ch = false := by
  simp only [isLowercase, Bool.and_eq_true, decide_eq_true_eq] at h
  simp only [isDigit, Bool.and_eq_false_iff, decide_eq_false_iff_not]
  omega

/-! ## Encode/decode facts for each alphabet, for every representable index -/

theorem encLower_spec_nat : ∀ n : Nat, n < 256 →
    decodeLowercase (encodeToLower (n : Int)) = (n : Int) ∧
    encodeToLower (n : Int) ≠ [] ∧
    (encodeToLower (n : Int)).length ≤ 2 ∧
    ∀ ch ∈ encodeToLower (n : Int), isLowercase ch = true := by decide

theorem encUpper_spec_nat : ∀ n : Nat, n < 256 →
    decodeUppercase (encodeToUpper (n : Int)) = (n : Int) ∧
    encodeToUpper (n : Int) ≠ [] ∧
    (encodeToUpper (n : Int)).length ≤ 2 ∧
    ∀ ch ∈ encodeToUpper (n : Int), isUppercase ch = true := by decide

theorem encNumber_spec_nat : ∀ n : Nat, n < 256 →
    decodeInteger (encodeToNumber (n : Int)) = (n : Int) ∧
    encodeToNumber (n : Int) ≠ [] ∧
    (encodeToNumber (n : Int)).length ≤ 3 ∧
    (∀ ch ∈ encodeToNumber (n : Int), isDigit ch = true) ∧
    (encodeToNumber (n : Int)).headD 0 ≠ 48 := by decide

theorem encLower_spec {v : Int} (h0 : 0 ≤ v) (h255 : v ≤ 255) :
    decodeLowercase (encodeToLower v) = v ∧
    encodeToLower v ≠ [] ∧
    (encodeToLower v).length ≤ 2 ∧
    ∀ ch ∈ encodeToLower v, isLowercase ch = true := by
  have hv : ((v.toNat : Nat) : Int) = v := Int.toNat_of_nonneg h0
  have hlt : v.toNat < 256 := by omega
  have h := encLower_spec_nat v.toNat hlt
  rwa [hv] at h

theorem encUpper_spec {v : Int} (h0 : 0 ≤ v) (h255 : v ≤ 255) :
    decodeUppercase (encodeToUpper v) = v ∧
    encodeToUpper v ≠ [] ∧
    (encodeToUpper v).length ≤ 2 ∧
    ∀ ch ∈ encodeToUpper v, isUppercase ch = true := by
  have hv : ((v.toNat : Nat) : Int) = v := Int.toNat_of_nonneg h0
  have hlt : v.toNat < 256 := by omega
  have h := encUpper_spec_nat v.toNat hlt
  rwa [hv] at h

theorem encNumber_spec {v : Int} (h0 : 0 ≤ v) (h255 : v ≤ 255) :
    decodeInteger (encodeToNumber v) = v ∧
    encodeToNumber v ≠ [] ∧
    (encodeToNumber v).length ≤ 3 ∧
    (∀ ch ∈ encodeToNumber v, isDigit ch = true) ∧
    (encodeToNumber v).headD 0 ≠ 48 := by
  have hv : ((v.toNat : Nat) : Int) = v := Int.toNat_of_nonneg h0
  have hlt : v.toNat < 256 := by omega
  have h := encNumber_spec_nat v.toNat hlt
  rwa [hv] at h

/-! ## List helpers -/

theorem headD_prop {p : Nat → Bool} {A : List Nat} (hne : A ≠ [])
    (hall : ∀ ch ∈ A, p ch = true) : p (A.headD 0) = true := by
  cases A with
  | nil => exact absurd rfl hne
  | cons a t => exact hall a (List.mem_cons_self a t)

theorem headD_append {A B : List Nat} (h : A ≠ []) : (A ++ B).headD 0 = A.headD 0 := by
  cases A with
  | nil => exact absurd rfl h
  | cons a t => rfl

theorem run_split (p : Nat → Bool) (A B : List Nat)
    (hA : ∀ a ∈ A, p a = true)
    (hB : ∀ b t, B = b :: t → p b = false) :
    (A ++ B).takeWhile p = A ∧ (A ++ B).dropWhile p = B := by
  constructor
  · rw [List.takeWhile_append_of_pos hA]
    cases B with
    | nil => simp
    | cons b t => simp [List.takeWhile_cons, hB b t rfl]
  · rw [List.dropWhile_append_of_pos hA]
    cases B with
    | nil => simp
    | cons b t => simp [List.dropWhile_cons, hB b t rfl]

theorem map_toInt_map_int (idx : List Int) : (idx.map JSNum.int).map JSNum.toInt = idx := by
  induction idx with
  | nil => rfl
  | cons a t ih => simp [JSNum.toInt, ih]

theorem all_valid_map_int {idx : List Int} (h : ∀ v ∈ idx, 0 ≤ v ∧ v ≤ 255) :
    (idx.map JSNum.int).all isValidIndex = true := by
  induction idx with
  | nil => rfl
  | cons a t ih =>
    have ha := h a (List.mem_cons_self a t)
    have ht := ih fun v hv => h v (List.mem_cons_of_mem a hv)
    simp only [List.map_cons, List.all_cons, Bool.and_eq_true]
    refine ⟨?_, ht⟩
    simp only [isValidIndex, MAX_INDEX_VALUE, Bool.and_eq_true, decide_eq_true_eq]
    omega

theorem make_ok_of_valid {idx : List Int} (h1 : idx ≠ []) (h3 : idx.length ≤ 3)
    (h : ∀ v ∈ idx, 0 ≤ v ∧ v ≤ 255) :
    Coordinate.make (idx.map JSNum.int) = .ok ⟨idx⟩ := by
  unfold Coordinate.make
  rw [if_neg, if_neg, if_pos (all_valid_map_int h), map_toInt_map_int]
  · simp only [MAX_DIMENSIONS, List.length_map, not_lt]
    exact h3
  · simp only [List.length_map, List.length_eq_zero]
    exact h1

/-! ## Evaluation lemmas for the parse loop -/

theorem parseLoop_nil (fuel : Nat) (ty : DimensionType) (acc : List Int) :
    parseLoop fuel [] ty acc = .ok acc := by
  cases fuel <;> rfl

theorem parseLoop_step_lower (fuel : Nat) (v : Int) (B : List Nat) (acc : List Int)
    (hacc : acc.length < 3) (h0 : 0 ≤ v) (h255 : v ≤ 255)
    (hB : ∀ b t, B = b :: t → isLowercase b = false) :
    parseLoop (fuel + 1) (encodeToLower v ++ B) .Lowercase acc =
      parseLoop fuel B .Integer (acc ++ [v]) := by
  obtain ⟨hdec, hne, hlen, hall⟩ := encLower_spec h0 h255
  cases hEnc : encodeToLower v with
  | nil => exact absurd hEnc hne
  | cons a t =>
    have ha : isLowercase a = true := hall a (by rw [hEnc]; exact List.mem_cons_self a t)
    have ht : ∀ x ∈ t, isLowercase x = true := fun x hx =>
      hall x (by rw [hEnc]; exact List.mem_cons_of_mem a hx)
    obtain ⟨htake, hdrop⟩ := run_split isLowercase t B ht hB
    rw [hEnc] at hdec
    simp only [List.cons_append, parseLoop, MAX_DIMENSIONS, MAX_INDEX_VALUE, List.append_eq,
      htake, hdrop, ha, hdec]
    rw [if_neg (by omega), if_neg (by simp), if_neg (by omega)]

theorem parseLoop_step_integer (fuel : Nat) (v : Int) (B : List Nat) (acc : List Int)
    (hacc : acc.length < 3) (h0 : 0 ≤ v) (h255 : v ≤ 255)
    (hB : ∀ b t, B = b :: t → isDigit b = false) :
    parseLoop (fuel + 1) (encodeToNumber v ++ B) .Integer acc =
      parseLoop fuel B .Uppercase (acc ++ [v]) := by
  obtain ⟨hdec, hne, hlen, hall, hhead⟩ := encNumber_spec h0 h255
  cases hEnc : encodeToNumber v with
  | nil => exact absurd hEnc hne
  | cons a t =>
    have ha : isDigit a = true := hall a (by rw [hEnc]; exact List.mem_cons_self a t)
    have ha48 : a ≠ 48 := by rw [hEnc] at hhead; exact hhead
    have ht : ∀ x ∈ t, isDigit x = true := fun x hx =>
      hall x (by rw [hEnc]; exact List.mem_cons_of_mem a hx)
    obtain ⟨htake, hdrop⟩ := run_split isDigit t B ht hB
    rw [hEnc] at hdec
    simp only [List.cons_append, parseLoop, MAX_DIMENSIONS, MAX_INDEX_VALUE, List.append_eq,
      htake, hdrop, ha, hdec]
    rw [if_neg (by omega), if_neg (by simp), if_neg (by simpa using ha48), if_neg (by omega)]

theorem parseLoop_step_upper (fuel : Nat) (v : Int) (B : List Nat) (acc : List Int)
    (hacc : acc.length < 3) (h0 : 0 ≤ v) (h255 : v ≤ 255)
    (hB : ∀ b t, B = b :: t → isUppercase b = false) :
    parseLoop (fuel + 1) (encodeToUpper v ++ B) .Uppercase acc =
      parseLoop fuel B .Lowercase (acc ++ [v]) := by
  obtain ⟨hdec, hne, hlen, hall⟩ := encUpper_spec h0 h255
  cases hEnc : encodeToUpper v with
  | nil => exact absurd hEnc hne
  | cons a t =>
    have ha : isUppercase a = true := hall a (by rw [hEnc]; exact List.mem_cons_self a t)
    have ht : ∀ x ∈ t, isUppercase x = true := fun x hx =>
      hall x (by rw [hEnc]; exact List.mem_cons_of_mem a hx)
    obtain ⟨htake, hdrop⟩ := run_split isUppercase t B ht hB
    rw [hEnc] at hdec
    simp only [List.cons_append, parseLoop, MAX_DIMENSIONS, MAX_INDEX_VALUE, List.append_eq,
      htake, hdrop, ha, hdec]
    rw [if_neg (by omega), if_neg (by simp), if_neg (by omega)]

theorem parseLoop_last_lower (fuel : Nat) (v : Int) (acc : List Int)
    (hacc : acc.length < 3) (h0 : 0 ≤ v) (h255 : v ≤ 255) :
    parseLoop (fuel + 1) (encodeToLower v) .Lowercase acc = .ok (acc ++ [v]) := by
  have h := parseLoop_step_lower fuel v [] acc hacc h0 h255 (fun b t hbt => by cases hbt)
  rw [List.append_nil] at h
  rw [h, parseLoop_nil]

theorem parseLoop_last_integer (fuel : Nat) (v : Int) (acc : List Int)
    (hacc : acc.length < 3) (h0 : 0 ≤ v) (h255 : v ≤ 255) :
    parseLoop (fuel + 1) (encodeToNumber v) .Integer acc = .ok (acc ++ [v]) := by
  have h := parseLoop_step_integer fuel v [] acc hacc h0 h255 (fun b t hbt => by cases hbt)
  rw [List.append_nil] at h
  rw [h, parseLoop_nil]

theorem parseLoop_last_upper (fuel : Nat) (v : Int) (acc : List Int)
    (hacc : acc.length < 3) (h0 : 0 ≤ v) (h255 : v ≤ 255) :
    parseLoop (fuel + 1) (encodeToUpper v) .Uppercase acc = .ok (acc ++ [v]) := by
  have h := parseLoop_step_upper fuel v [] acc hacc h0 h255 (fun b t hbt => by cases hbt)
  rw [List.append_nil] at h
  rw [h, parseLoop_nil]

/-! ## Shape of the serialization -/

theorem encodeDim_zero (v : Int) : encodeDim 0 v = encodeToLower v := rfl

theorem encodeDim_one (v : Int) : encodeDim 1 v = encodeToNumber v := rfl

theorem encodeDim_two (v : Int) : encodeDim 2 v = encodeToUpper v := rfl

theorem toString_one (v1 : Int) : Coordinate.toString ⟨[v1]⟩ = encodeToLower v1 := by
  simp [Coordinate.toString, encodeFrom, encodeDim_zero]

theorem toString_two (v1 v2 : Int) :
    Coordinate.toString ⟨[v1, v2]⟩ = encodeToLower v1 ++ encodeToNumber v2 := by
  simp [Coordinate.toString, encodeFrom, encodeDim_zero, encodeDim_one]

theorem toString_three (v1 v2 v3 : Int) :
    Coordinate.toString ⟨[v1, v2, v3]⟩ =
      encodeToLower v1 ++ (encodeToNumber v2 ++ encodeToUpper v3) := by
  simp [Coordinate.toString, encodeFrom, encodeDim_zero, encodeDim_one, encodeDim_two]

/-! ## Parsing a canonical serialization -/

theorem parse_encoded_one {v1 : Int} (h0 : 0 ≤ v1) (h255 : v1 ≤ 255) :
    parse (encodeToLower v1) = .ok ⟨[v1]⟩ := by
  obtain ⟨hd1, hne1, hlen1, hall1⟩ := encLower_spec h0 h255
  have hpos1 : 0 < (encodeToLower v1).length := List.length_pos.mpr hne1
  have hloop : parseLoop (MAX_DIMENSIONS + 1) (encodeToLower v1) .Lowercase [] = .ok [v1] :=
    parseLoop_last_lower 3 v1 [] (by simp) h0 h255
  unfold parse
  rw [if_neg (by omega), if_neg (by simp only [MAX_STRING_LENGTH]; omega),
    if_neg (by rw [headD_prop hne1 hall1]; simp), hloop]
  exact make_ok_of_valid (by simp) (by simp) (by intro v hvm; simp at hvm; omega)

theorem parse_encoded_two {v1 v2 : Int} (h10 : 0 ≤ v1) (h1255 : v1 ≤ 255)
    (h20 : 0 ≤ v2) (h2255 : v2 ≤ 255) :
    parse (encodeToLower v1 ++ encodeToNumber v2) = .ok ⟨[v1, v2]⟩ := by
  obtain ⟨hd1, hne1, hlen1, hall1⟩ := encLower_spec h10 h1255
  obtain ⟨hd2, hne2, hlen2, hall2, hh2⟩ := encNumber_spec h20 h2255
  have hpos1 : 0 < (encodeToLower v1).length := List.length_pos.mpr hne1
  have hB : ∀ b t, encodeToNumber v2 = b :: t → isLowercase b = false := fun b t hbt =>
    digit_not_lower (hall2 b (by rw [hbt]; exact List.mem_cons_self b t))
  have hloop : parseLoop (MAX_DIMENSIONS + 1) (encodeToLower v1 ++ encodeToNumber v2)
      .Lowercase [] = .ok [v1, v2] := by
    have s1 : parseLoop 4 (encodeToLower v1 ++ encodeToNumber v2) .Lowercase [] =
        parseLoop 3 (encodeToNumber v2) .Integer [v1] :=
      parseLoop_step_lower 3 v1 (encodeToNumber v2) [] (by simp) h10 h1255 hB
    have s2 : parseLoop 3 (encodeToNumber v2) .Integer [v1] = .ok [v1, v2] :=
      parseLoop_last_integer 2 v2 [v1] (by simp) h20 h2255
    exact s1.trans s2
  have hlen : (encodeToLower v1 ++ encodeToNumber v2).length =
      (encodeToLower v1).length + (encodeToNumber v2).length := List.length_append _ _
  unfold parse
  rw [if_neg (by omega), if_neg (by simp only [MAX_STRING_LENGTH]; omega),
    if_neg (by rw [headD_append hne1, headD_prop hne1 hall1]; simp), hloop]
  exact make_ok_of_valid (by simp) (by simp) (by intro v hvm; simp at hvm; rcases hvm with h | h <;> omega)

theorem parse_encoded_three {v1 v2 v3 : Int} (h10 : 0 ≤ v1) (h1255 : v1 ≤ 255)
    (h20 : 0 ≤ v2) (h2255 : v2 ≤ 255) (h30 : 0 ≤ v3) (h3255 : v3 ≤ 255) :
    parse (encodeToLower v1 ++ (encodeToNumber v2 ++ encodeToUpper v3)) = .ok ⟨[v1, v2, v3]⟩ := by
  obtain ⟨hd1, hne1, hlen1, hall1⟩ := encLower_spec h10 h1255
  obtain ⟨hd2, hne2, hlen2, hall2, hh2⟩ := encNumber_spec h20 h2255
  obtain ⟨hd3, hne3, hlen3, hall3⟩ := encUpper_spec h30 h3255
  have hpos1 : 0 < (encodeToLower v1).length := List.length_pos.mpr hne1
  have hBL : ∀ b t, encodeToNumber v2 ++ encodeToUpper v3 = b :: t → isLowercase b = false := by
    intro b t hbt
    have hb : b = (encodeToNumber v2 ++ encodeToUpper v3).headD 0 := by rw [hbt]; rfl
    rw [headD_append hne2] at hb
    exact digit_not_lower (hb ▸ headD_prop hne2 hall2)
  have hBU : ∀ b t, encodeToUpper v3 = b :: t → isDigit b = false := fun b t hbt =>
    upper_not_digit (hall3 b (by rw [hbt]; exact List.mem_cons_self b t))
  have hloop : parseLoop (MAX_DIMENSIONS + 1)
      (encodeToLower v1 ++ (encodeToNumber v2 ++ encodeToUpper v3)) .Lowercase [] =
      .ok [v1, v2, v3] := by
    have s1 : parseLoop 4 (encodeToLower v1 ++ (encodeToNumber v2 ++ encodeToUpper v3))
        .Lowercase [] = parseLoop 3 (encodeToNumber v2 ++ encodeToUpper v3) .Integer [v1] :=
      parseLoop_step_lower 3 v1 (encodeToNumber v2 ++ encodeToUpper v3) [] (by simp) h10 h1255 hBL
    have s2 : parseLoop 3 (encodeToNumber v2 ++ encodeToUpper v3) .Integer [v1] =
        parseLoop 2 (encodeToUpper v3) .Uppercase [v1, v2] :=
      parseLoop_step_integer 2 v2 (encodeToUpper v3) [v1] (by simp) h20 h2255 hBU
    have s3 : parseLoop 2 (encodeToUpper v3) .Uppercase [v1, v2] = .ok [v1, v2, v3] :=
      parseLoop_last_upper 1 v3 [v1, v2] (by simp) h30 h3255
    exact (s1.trans s2).trans s3
  have hlen : (encodeToLower v1 ++ (encodeToNumber v2 ++ encodeToUpper v3)).length =
      (encodeToLower v1).length + ((encodeToNumber v2).length + (encodeToUpper v3).length) := by
    simp [List.length_append]
  unfold parse
  rw [if_neg (by omega), if_neg (by simp only [MAX_STRING_LENGTH]; omega),
    if_neg (by rw [headD_append hne1, headD_prop hne1 hall1]; simp), hloop]
  exact make_ok_of_valid (by simp) (by simp)
    (by intro v hvm; simp at hvm; rcases hvm with h | h | h <;> omega)

/-- Serializing any valid Coordinate and parsing the result returns an equal
Coordinate. -/
theorem parse_toString {c : Coordinate}
    (h1 : c.indices ≠ []) (h3 : c.indices.length ≤ 3)
    (hv : ∀ v ∈ c.indices, 0 ≤ v ∧ v ≤ 255) :
    parse (Coordinate.toString c) = .ok c := by
  obtain ⟨l⟩ := c
  simp only at h1 h3 hv
  match l, h1, h3 with
  | [v1], _, _ =>
    have hv1 := hv v1 (by simp)
    rw [toString_one]
    exact parse_encoded_one hv1.1 hv1.2
  | [v1, v2], _, _ =>
    have hv1 := hv v1 (by simp)
    have hv2 := hv v2 (by simp)
    rw [toString_two]
    exact parse_encoded_two hv1.1 hv1.2 hv2.1 hv2.2
  | [v1, v2, v3], _, _ =>
    have hv1 := hv v1 (by simp)
    have hv2 := hv v2 (by simp)
    have hv3 := hv v3 (by simp)
    rw [toString_three]
    exact parse_encoded_three hv1.1 hv1.2 hv2.1 hv2.2 hv3.1 hv3.2

/-! ## Inversion of the parse loop -/

theorem decodeLowercase_nonneg {chars : List Nat} (hne : chars ≠ [])
    (hall : ∀ ch ∈ chars, isLowercase ch = true) : 0 ≤ decodeLowercase chars := by
  rcases chars with _ | ⟨c1, _ | ⟨c2, t⟩⟩
  · exact absurd rfl hne
  · have h1 := hall c1 (by simp)
    simp only [isLowercase, Bool.and_eq_true, decide_eq_true_eq] at h1
    simp only [decodeLowercase]
    omega
  · have h1 := hall c1 (by simp)
    have h2 := hall c2 (by simp)
    simp only [isLowercase, Bool.and_eq_true, decide_eq_true_eq] at h1 h2
    simp only [decodeLowercase]
    omega

theorem decodeUppercase_nonneg {chars : List Nat} (hne : chars ≠ [])
    (hall : ∀ ch ∈ chars, isUppercase ch = true) : 0 ≤ decodeUppercase chars := by
  rcases chars with _ | ⟨c1, _ | ⟨c2, t⟩⟩
  · exact absurd rfl hne
  · have h1 := hall c1 (by simp)
    simp only [isUppercase, Bool.and_eq_true, decide_eq_true_eq] at h1
    simp only [decodeUppercase]
    omega
  · have h1 := hall c1 (by simp)
    have h2 := hall c2 (by simp)
    simp only [isUppercase, Bool.and_eq_true, decide_eq_true_eq] at h1 h2
    simp only [decodeUppercase]
    omega

theorem parseLoop_lower_inv {fuel : Nat} {a : Nat} {t : List Nat} {acc idx : List Int}
    (hdim : acc.length < 3)
    (h : parseLoop (fuel + 1) (a :: t) .Lowercase acc = .ok idx) :
    isLowercase a = true ∧
    decodeLowercase (a :: t.takeWhile isLowercase) ≤ 255 ∧
    parseLoop fuel (t.dropWhile isLowercase) .Integer
      (acc ++ [decodeLowercase (a :: t.takeWhile isLowercase)]) = .ok idx := by
  simp only [parseLoop, MAX_DIMENSIONS, MAX_INDEX_VALUE] at h
  rw [if_neg (by omega)] at h
  by_cases hlow : isLowercase a = false
  · rw [if_pos hlow] at h; cases h
  · rw [if_neg hlow] at h
    by_cases hmax : (255 : Int) < decodeLowercase (a :: t.takeWhile isLowercase)
    · rw [if_pos hmax] at h; cases h
    · rw [if_neg hmax] at h
      exact ⟨eq_true_of_ne_false hlow, by omega, h⟩

theorem parseLoop_integer_inv {fuel : Nat} {a : Nat} {t : List Nat} {acc idx : List Int}
    (hdim : acc.length < 3)
    (h : parseLoop (fuel + 1) (a :: t) .Integer acc = .ok idx) :
    isDigit a = true ∧ a ≠ 48 ∧
    0 ≤ decodeInteger (a :: t.takeWhile isDigit) ∧
    decodeInteger (a :: t.takeWhile isDigit) ≤ 255 ∧
    parseLoop fuel (t.dropWhile isDigit) .Uppercase
      (acc ++ [decodeInteger (a :: t.takeWhile isDigit)]) = .ok idx := by
  simp only [parseLoop, MAX_DIMENSIONS, MAX_INDEX_VALUE] at h
  rw [if_neg (by omega)] at h
  by_cases hdig : isDigit a = false
  · rw [if_pos hdig] at h; cases h
  · rw [if_neg hdig] at h
    by_cases h48 : a = 48
    · rw [if_pos h48] at h; cases h
    · rw [if_neg h48] at h
      by_cases hmax : decodeInteger (a :: t.takeWhile isDigit) < 0 ∨
          (255 : Int) < decodeInteger (a :: t.takeWhile isDigit)
      · rw [if_pos hmax] at h; cases h
      · rw [if_neg hmax] at h
        push_neg at hmax
        exact ⟨eq_true_of_ne_false hdig, h48, hmax.1, hmax.2, h⟩

theorem parseLoop_upper_inv {fuel : Nat} {a : Nat} {t : List Nat} {acc idx : List Int}
    (hdim : acc.length < 3)
    (h : parseLoop (fuel + 1) (a :: t) .Uppercase acc = .ok idx) :
    isUppercase a = true ∧
    decodeUppercase (a :: t.takeWhile isUppercase) ≤ 255 ∧
    parseLoop fuel (t.dropWhile isUppercase) .Lowercase
      (acc ++ [decodeUppercase (a :: t.takeWhile isUppercase)]) = .ok idx := by
  simp only [parseLoop, MAX_DIMENSIONS, MAX_INDEX_VALUE] at h
  rw [if_neg (by omega)] at h
  by_cases hup : isUppercase a = false
  · rw [if_pos hup] at h; cases h
  · rw [if_neg hup] at h
    by_cases hmax : (255 : Int) < decodeUppercase (a :: t.takeWhile isUppercase)
    · rw [if_pos hmax] at h; cases h
    · rw [if_neg hmax] at h
      exact ⟨eq_true_of_ne_false hup, by omega, h⟩

/-- With three indices already decoded and input remaining, the loop rejects
before looking at the next character, whatever it is and whatever the
expected alphabet is. -/
theorem parseLoop_full (fuel : Nat) (a : Nat) (t : List Nat) (ty : DimensionType)
    (acc : List Int) (hdim : 3 ≤ acc.length) :
    parseLoop fuel (a :: t) ty acc = .error (.cellError .tooManyDimensions) := by
  cases fuel with
  | zero => rfl
  | succ fuel =>
    simp only [parseLoop, MAX_DIMENSIONS]
    rw [if_pos hdim]

/-- Every successful loop state keeps all decoded indices in range and never
exceeds three of them; nonempty remaining input forces strict growth. -/
theorem parseLoop_ok_invariant :
    ∀ (fuel : Nat) (s : List Nat) (ty : DimensionType) (acc idx : List Int),
      parseLoop fuel s ty acc = .ok idx →
      (∀ v ∈ acc, 0 ≤ v ∧ v ≤ 255) → acc.length ≤ 3 →
      (∀ v ∈ idx, 0 ≤ v ∧ v ≤ 255) ∧ idx.length ≤ 3 ∧ acc.length ≤ idx.length ∧
        (s ≠ [] → acc.length < idx.length) := by
  intro fuel
  induction fuel with
  | zero =>
    intro s ty acc idx h hacc hlen
    cases s with
    | nil =>
      rw [parseLoop_nil] at h
      cases h
      exact ⟨hacc, hlen, le_refl _, fun hc => absurd rfl hc⟩
    | cons a t => cases h
  | succ fuel ih =>
    intro s ty acc idx h hacc hlen
    cases s with
    | nil =>
      rw [parseLoop_nil] at h
      cases h
      exact ⟨hacc, hlen, le_refl _, fun hc => absurd rfl hc⟩
    | cons a t =>
      rcases Nat.lt_or_ge acc.length 3 with hdim | hdim
      · cases ty with
        | Lowercase =>
          obtain ⟨ha, hmax, h'⟩ := parseLoop_lower_inv hdim h
          have hlo : 0 ≤ decodeLowercase (a :: t.takeWhile isLowercase) := by
            apply decodeLowercase_nonneg (by simp)
            intro ch hch
            rcases List.mem_cons.mp hch with rfl | hmem
            · exact ha
            · exact List.mem_takeWhile_imp hmem
          have hacc' : ∀ v ∈ acc ++ [decodeLowercase (a :: t.takeWhile isLowercase)],
              0 ≤ v ∧ v ≤ 255 := by
            intro v hv
            rcases List.mem_append.mp hv with hv | hv
            · exact hacc v hv
            · rcases List.mem_singleton.mp hv with rfl
              exact ⟨hlo, hmax⟩
          obtain ⟨b1, b2, b3, _⟩ := ih _ _ _ _ h' hacc' (by simp; omega)
          refine ⟨b1, b2, by simp at b3; omega, fun _ => by simp at b3; omega⟩
        | Integer =>
          obtain ⟨ha, h48, hlo, hmax, h'⟩ := parseLoop_integer_inv hdim h
          have hacc' : ∀ v ∈ acc ++ [decodeInteger (a :: t.takeWhile isDigit)],
              0 ≤ v ∧ v ≤ 255 := by
            intro v hv
            rcases List.mem_append.mp hv with hv | hv
            · exact hacc v hv
            · rcases List.mem_singleton.mp hv with rfl
              exact ⟨hlo, hmax⟩
          obtain ⟨b1, b2, b3, _⟩ := ih _ _ _ _ h' hacc' (by simp; omega)
          refine ⟨b1, b2, by simp at b3; omega, fun _ => by simp at b3; omega⟩
        | Uppercase =>
          obtain ⟨ha, hmax, h'⟩ := parseLoop_upper_inv hdim h
          have hlo : 0 ≤ decodeUppercase (a :: t.takeWhile isUppercase) := by
            apply decodeUppercase_nonneg (by simp)
            intro ch hch
            rcases List.mem_cons.mp hch with rfl | hmem
            · exact ha
            · exact List.mem_takeWhile_imp hmem
          have hacc' : ∀ v ∈ acc ++ [decodeUppercase (a :: t.takeWhile isUppercase)],
              0 ≤ v ∧ v ≤ 255 := by
            intro v hv
            rcases List.mem_append.mp hv with hv | hv
            · exact hacc v hv
            · rcases List.mem_singleton.mp hv with rfl
              exact ⟨hlo, hmax⟩
          obtain ⟨b1, b2, b3, _⟩ := ih _ _ _ _ h' hacc' (by simp; omega)
          refine ⟨b1, b2, by simp at b3; omega, fun _ => by simp at b3; omega⟩
      · rw [parseLoop_full (fuel + 1) a t ty acc hdim] at h
        cases h

/-- Every accepted string is exactly the one, two or three maximal runs the
loop consumed, and the parsed indices are exactly the decoded runs. -/
theorem parse_ok_decomp {s : List Nat} {c : Coordinate} (h : parse s = .ok c) :
    (∃ r1, runLower r1 ∧ s = r1 ∧
       0 ≤ decodeLowercase r1 ∧ decodeLowercase r1 ≤ 255 ∧
       c.indices = [decodeLowercase r1]) ∨
    (∃ r1 r2, runLower r1 ∧ runDigit r2 ∧ s = r1 ++ r2 ∧
       0 ≤ decodeLowercase r1 ∧ decodeLowercase r1 ≤ 255 ∧
       0 ≤ decodeInteger r2 ∧ decodeInteger r2 ≤ 255 ∧
       c.indices = [decodeLowercase r1, decodeInteger r2]) ∨
    (∃ r1 r2 r3, runLower r1 ∧ runDigit r2 ∧ runUpper r3 ∧ s = r1 ++ (r2 ++ r3) ∧
       0 ≤ decodeLowercase r1 ∧ decodeLowercase r1 ≤ 255 ∧
       0 ≤ decodeInteger r2 ∧ decodeInteger r2 ≤ 255 ∧
       0 ≤ decodeUppercase r3 ∧ decodeUppercase r3 ≤ 255 ∧
       c.indices = [decodeLowercase r1, decodeInteger r2, decodeUppercase r3]) := by
  cases s with
  | nil => simp [parse] at h
  | cons a t =>
    unfold parse at h
    rw [if_neg (by simp)] at h
    by_cases h7 : MAX_STRING_LENGTH < (a :: t).length
    · rw [if_pos h7] at h; cases h
    · rw [if_neg h7] at h
      by_cases hst : isLowercase ((a :: t).headD 0) = false
      · rw [if_pos hst] at h; cases h
      · rw [if_neg hst] at h
        cases hp : parseLoop (MAX_DIMENSIONS + 1) (a :: t) .Lowercase [] with
        | error e => rw [hp] at h; cases h
        | ok idx =>
          rw [hp] at h
          change Coordinate.make (idx.map JSNum.int) = .ok c at h
          obtain ⟨ha, hmax1, h1⟩ := parseLoop_lower_inv (by simp) hp
          simp only [List.nil_append] at h1
          have hrun1 : runLower (a :: t.takeWhile isLowercase) := by
            refine ⟨by simp, ?_⟩
            intro ch hch
            rcases List.mem_cons.mp hch with rfl | hmem
            · exact ha
            · exact List.mem_takeWhile_imp hmem
          have hlo1 : 0 ≤ decodeLowercase (a :: t.takeWhile isLowercase) :=
            decodeLowercase_nonneg (by simp) hrun1.2
          have hs : a :: t = (a :: t.takeWhile isLowercase) ++ t.dropWhile isLowercase := by
            rw [List.cons_append, List.takeWhile_append_dropWhile]
          cases hrest : t.dropWhile isLowercase with
          | nil =>
            rw [hrest, parseLoop_nil] at h1
            cases h1
            rw [make_ok_of_valid (by simp) (by simp)
              (by intro v hv; rcases List.mem_singleton.mp hv with rfl; exact ⟨hlo1, hmax1⟩)] at h
            cases h
            refine Or.inl ⟨a :: t.takeWhile isLowercase, hrun1, ?_, hlo1, hmax1, rfl⟩
            rw [hs, hrest, List.append_nil]
          | cons b t2 =>
            rw [hrest] at h1
            obtain ⟨hb, h48, hlo2, hmax2, h2⟩ := parseLoop_integer_inv (by simp) h1
            simp only [List.cons_append, List.nil_append] at h2
            have hrun2 : runDigit (b :: t2.takeWhile isDigit) := by
              refine ⟨by simp, ?_, ?_⟩
              · intro ch hch
                rcases List.mem_cons.mp hch with rfl | hmem
                · exact hb
                · exact List.mem_takeWhile_imp hmem
              · exact h48
            have hs2 : b :: t2 = (b :: t2.takeWhile isDigit) ++ t2.dropWhile isDigit := by
              rw [List.cons_append, List.takeWhile_append_dropWhile]
            cases hrest2 : t2.dropWhile isDigit with
            | nil =>
              rw [hrest2, parseLoop_nil] at h2
              cases h2
              rw [make_ok_of_valid (by simp) (by simp) (by
                intro v hv
                rcases List.mem_cons.mp hv with rfl | hv
                · exact ⟨hlo1, hmax1⟩
                · rcases List.mem_singleton.mp hv with rfl
                  exact ⟨hlo2, hmax2⟩)] at h
              cases h
              refine Or.inr (Or.inl ⟨a :: t.takeWhile isLowercase, b :: t2.takeWhile isDigit,
                hrun1, hrun2, ?_, hlo1, hmax1, hlo2, hmax2, rfl⟩)
              rw [hs, hrest, hs2, hrest2, List.append_nil]
            | cons e t3 =>
              rw [hrest2] at h2
              obtain ⟨he, hmax3, h3⟩ := parseLoop_upper_inv (by simp) h2
              simp only [List.cons_append, List.nil_append] at h3
              have hrun3 : runUpper (e :: t3.takeWhile isUppercase) := by
                refine ⟨by simp, ?_⟩
                intro ch hch
                rcases List.mem_cons.mp hch with rfl | hmem
                · exact he
                · exact List.mem_takeWhile_imp hmem
              have hlo3 : 0 ≤ decodeUppercase (e :: t3.takeWhile isUppercase) :=
                decodeUppercase_nonneg (by simp) hrun3.2
              have hs3 : e :: t3 = (e :: t3.takeWhile isUppercase) ++ t3.dropWhile isUppercase := by
                rw [List.cons_append, List.takeWhile_append_dropWhile]
              cases hrest3 : t3.dropWhile isUppercase with
              | nil =>
                rw [hrest3, parseLoop_nil] at h3
                cases h3
                rw [make_ok_of_valid (by simp) (by simp) (by
                  intro v hv
                  rcases List.mem_cons.mp hv with rfl | hv
                  · exact ⟨hlo1, hmax1⟩
                  · rcases List.mem_cons.mp hv with rfl | hv
                    · exact ⟨hlo2, hmax2⟩
                    · rcases List.mem_singleton.mp hv with rfl
                      exact ⟨hlo3, hmax3⟩)] at h
                cases h
                refine Or.inr (Or.inr ⟨a :: t.takeWhile isLowercase, b :: t2.takeWhile isDigit,
                  e :: t3.takeWhile isUppercase, hrun1, hrun2, hrun3, ?_, hlo1, hmax1, hlo2,
                  hmax2, hlo3, hmax3, rfl⟩)
                rw [hs, hrest, hs2, hrest2, hs3, hrest3, List.append_nil]
              | cons f t4 =>
                rw [hrest3, parseLoop_full 1 f t4 .Lowercase _ (by simp)] at h3
                cases h3

/-! ## Uniqueness of the per-alphabet encodings -/

/-- The 1-based numeric value accumulated by decodeInteger, over Nat. -/
def digitsVal (chars : List Nat) : Nat :=
  chars.foldl (fun value c => value * 10 + (c - 48)) 0

theorem decodeInteger_foldl_nat :
    ∀ (chars : List Nat) (v : Nat), (∀ c ∈ chars, 48 ≤ c) →
      List.foldl (fun (value : Int) (c : Nat) => value * 10 + ((c : Int) - 48)) (v : Int) chars =
        ((List.foldl (fun value c => value * 10 + (c - 48)) v chars : Nat) : Int) := by
  intro chars
  induction chars with
  | nil => intro v _; rfl
  | cons c t ih =>
    intro v h
    have hc := h c (by simp)
    simp only [List.foldl_cons]
    have hcast : (v : Int) * 10 + ((c : Int) - 48) = ((v * 10 + (c - 48) : Nat) : Int) := by
      omega
    rw [hcast]
    exact ih _ fun x hx => h x (List.mem_cons_of_mem c hx)

theorem decodeInteger_eq_digitsVal {chars : List Nat} (h : ∀ c ∈ chars, 48 ≤ c) :
    decodeInteger chars = (digitsVal chars : Int) - 1 := by
  have h0 : ((0 : Nat) : Int) = 0 := rfl
  unfold decodeInteger digitsVal
  rw [← h0, decodeInteger_foldl_nat chars 0 h]

theorem foldl_digits_mono :
    ∀ (chars : List Nat) (v : Nat),
      v ≤ List.foldl (fun value c => value * 10 + (c - 48)) v chars := by
  intro chars
  induction chars with
  | nil => intro v; exact le_refl v
  | cons c t ih =>
    intro v
    exact le_trans (by omega) (ih (v * 10 + (c - 48)))

theorem digitsVal_pos {c : Nat} (t : List Nat) (h49 : 49 ≤ c) :
    1 ≤ digitsVal (c :: t) := by
  unfold digitsVal
  simp only [List.foldl_cons]
  exact le_trans (by omega) (foldl_digits_mono t (0 * 10 + (c - 48)))

theorem toDecimal_zero (fuel : Nat) : toDecimal fuel 0 = [] := by
  cases fuel <;> rfl

theorem toDecimal_digitsVal :
    ∀ (chars : List Nat), (∀ c ∈ chars, 48 ≤ c ∧ c ≤ 57) → chars ≠ [] →
      chars.headD 0 ≠ 48 → ∀ fuel : Nat, digitsVal chars < 10 ^ fuel →
      toDecimal fuel (digitsVal chars) = chars := by
  intro chars
  induction chars using List.reverseRecOn with
  | nil => intro _ hne; exact absurd rfl hne
  | append_singleton ds d ih =>
    intro hdig hne hhead fuel hbound
    have hd : 48 ≤ d ∧ d ≤ 57 := hdig d (by simp)
    have hval : digitsVal (ds ++ [d]) = digitsVal ds * 10 + (d - 48) := by
      unfold digitsVal
      rw [List.foldl_append]
      simp only [List.foldl_cons, List.foldl_nil]
    cases ds with
    | nil =>
      have h49 : 49 ≤ d := by
        have hd48 : d ≠ 48 := by simpa using hhead
        omega
      have hval2 : digitsVal ([] ++ [d]) = d - 48 := by unfold digitsVal; simp
      rw [hval2] at hbound ⊢
      cases fuel with
      | zero => simp at hbound; omega
      | succ fuel =>
        unfold toDecimal
        rw [if_neg (by omega)]
        have h10 : (d - 48) / 10 = 0 := by omega
        rw [h10, toDecimal_zero]
        simp only [List.nil_append, List.cons.injEq, and_true]
        omega
    | cons d0 ds' =>
      have hhead' : (d0 :: ds').headD 0 ≠ 48 := by simpa using hhead
      have hdig' : ∀ c ∈ d0 :: ds', 48 ≤ c ∧ c ≤ 57 := fun c hc =>
        hdig c (List.mem_append_left _ hc)
      have h49 : 49 ≤ d0 := by
        have hb := hdig' d0 (by simp)
        have h48 : d0 ≠ 48 := by simpa using hhead'
        omega
      have hpos : 1 ≤ digitsVal (d0 :: ds') := digitsVal_pos ds' h49
      rw [hval] at hbound ⊢
      cases fuel with
      | zero => simp at hbound; omega
      | succ fuel =>
        unfold toDecimal
        rw [if_neg (by omega)]
        have hdiv : (digitsVal (d0 :: ds') * 10 + (d - 48)) / 10 = digitsVal (d0 :: ds') := by
          omega
        have hmod : (digitsVal (d0 :: ds') * 10 + (d - 48)) % 10 = d - 48 := by
          omega
        rw [hdiv, hmod]
        have hb' : digitsVal (d0 :: ds') < 10 ^ fuel := by
          rw [pow_succ] at hbound
          omega
        rw [ih hdig' (by simp) hhead' fuel hb']
        simp only [List.append_cancel_left_eq, List.cons.injEq, and_true]
        omega

theorem encodeToNumber_decodeInteger {chars : List Nat}
    (hall : ∀ ch ∈ chars, isDigit ch = true) (hne : chars ≠ [])
    (hhead : chars.headD 0 ≠ 48) (hle : decodeInteger chars ≤ 255) :
    encodeToNumber (decodeInteger chars) = chars := by
  have hd : ∀ c ∈ chars, 48 ≤ c ∧ c ≤ 57 := by
    intro c hc
    have hdc := hall c hc
    simp only [isDigit, Bool.and_eq_true, decide_eq_true_eq] at hdc
    exact hdc
  have h48 : ∀ c ∈ chars, 48 ≤ c := fun c hc => (hd c hc).1
  have heq := decodeInteger_eq_digitsVal h48
  obtain ⟨c0, t, rfl⟩ : ∃ c0 t, chars = c0 :: t := by
    cases chars with
    | nil => exact absurd rfl hne
    | cons c0 t => exact ⟨c0, t, rfl⟩
  have h49 : 49 ≤ c0 := by
    have hb := hd c0 (by simp)
    have hc048 : c0 ≠ 48 := by simpa using hhead
    omega
  have hpos : 1 ≤ digitsVal (c0 :: t) := digitsVal_pos t h49
  have hval256 : digitsVal (c0 :: t) ≤ 256 := by
    rw [heq] at hle
    omega
  unfold encodeToNumber
  have htn : (decodeInteger (c0 :: t) + 1).toNat = digitsVal (c0 :: t) := by
    rw [heq]
    omega
  rw [htn]
  exact toDecimal_digitsVal (c0 :: t) hd (by simp) hhead 8
    (lt_of_le_of_lt hval256 (by norm_num))

theorem encodeToLower_decodeLowercase {chars : List Nat}
    (hall : ∀ ch ∈ chars, isLowercase ch = true) (hne : chars ≠ [])
    (hlen : chars.length ≤ 2) :
    encodeToLower (decodeLowercase chars) = chars := by
  rcases chars with _ | ⟨c1, _ | ⟨c2, t⟩⟩
  · exact absurd rfl hne
  · have h1 := hall c1 (by simp)
    simp only [isLowercase, Bool.and_eq_true, decide_eq_true_eq] at h1
    simp only [decodeLowercase, encodeToLower]
    rw [if_pos (by omega)]
    simp only [List.cons.injEq, and_true]
    omega
  · have ht : t = [] := by
      simp only [List.length_cons] at hlen
      exact List.eq_nil_of_length_eq_zero (by omega)
    subst ht
    have h1 := hall c1 (by simp)
    have h2 := hall c2 (by simp)
    simp only [isLowercase, Bool.and_eq_true, decide_eq_true_eq] at h1 h2
    simp only [decodeLowercase, encodeToLower]
    rw [if_neg (by omega)]
    simp only [List.cons.injEq, and_true]
    refine ⟨by omega, by omega⟩

theorem encodeToUpper_decodeUppercase {chars : List Nat}
    (hall : ∀ ch ∈ chars, isUppercase ch = true) (hne : chars ≠ [])
    (hlen : chars.length ≤ 2) :
    encodeToUpper (decodeUppercase chars) = chars := by
  rcases chars with _ | ⟨c1, _ | ⟨c2, t⟩⟩
  · exact absurd rfl hne
  · have h1 := hall c1 (by simp)
    simp only [isUppercase, Bool.and_eq_true, decide_eq_true_eq] at h1
    simp only [decodeUppercase, encodeToUpper]
    rw [if_pos (by omega)]
    simp only [List.cons.injEq, and_true]
    omega
  · have ht : t = [] := by
      simp only [List.length_cons] at hlen
      exact List.eq_nil_of_length_eq_zero (by omega)
    subst ht
    have h1 := hall c1 (by simp)
    have h2 := hall c2 (by simp)
    simp only [isUppercase, Bool.and_eq_true, decide_eq_true_eq] at h1 h2
    simp only [decodeUppercase, encodeToUpper]
    rw [if_neg (by omega)]
    simp only [List.cons.injEq, and_true]
    refine ⟨by omega, by omega⟩

/-! ## Short letter runs -/

theorem shortLetterRuns_tail {x : Nat} {l : List Nat}
    (h : shortLetterRuns (x :: l) = true) : shortLetterRuns l = true := by
  rcases l with _ | ⟨b, _ | ⟨c, rest⟩⟩
  · rfl
  · rfl
  · simp only [shortLetterRuns, Bool.and_eq_true] at h
    exact h.2

theorem shortLetterRuns_suffix {A B : List Nat} (h : shortLetterRuns (A ++ B) = true) :
    shortLetterRuns B = true := by
  induction A with
  | nil => exact h
  | cons a A ih => exact ih (shortLetterRuns_tail h)

theorem run_le_two_lower {r s2 : List Nat} (hshort : shortLetterRuns (r ++ s2) = true)
    (hall : ∀ ch ∈ r, isLowercase ch = true) : r.length ≤ 2 := by
  by_contra hc
  push_neg at hc
  rcases r with _ | ⟨a, _ | ⟨b, _ | ⟨c, t⟩⟩⟩
  · simp at hc
  · simp at hc
  · simp at hc
  · have h3 : shortLetterRuns (a :: b :: c :: (t ++ s2)) = true := hshort
    simp only [shortLetterRuns, Bool.and_eq_true] at h3
    have hno := h3.1.1
    rw [Bool.not_eq_true'] at hno
    rw [hall a (by simp), hall b (by simp), hall c (by simp)] at hno
    simp at hno

theorem run_le_two_upper {r s2 : List Nat} (hshort : shortLetterRuns (r ++ s2) = true)
    (hall : ∀ ch ∈ r, isUppercase ch = true) : r.length ≤ 2 := by
  by_contra hc
  push_neg at hc
  rcases r with _ | ⟨a, _ | ⟨b, _ | ⟨c, t⟩⟩⟩
  · simp at hc
  · simp at hc
  · simp at hc
  · have h3 : shortLetterRuns (a :: b :: c :: (t ++ s2)) = true := hshort
    simp only [shortLetterRuns, Bool.and_eq_true] at h3
    have hno := h3.1.2
    rw [Bool.not_eq_true'] at hno
    rw [hall a (by simp), hall b (by simp), hall c (by simp)] at hno
    simp at hno

/-! ## Claim theorems -/

/-- Claim C1, counterexample: the claim is false as stated. The token "aaa"
(code units [97, 97, 97]) is accepted by parse — decodeLowercase reads only
the first two letters of the run, so it decodes to the single index 26 —
but formatting the parsed indices yields "aa" ([97, 97]), not "aaa". -/
theorem roundtrip_counterexample_aaa :
    parse [97, 97, 97] = .ok ⟨[26]⟩ ∧
    format ((Coordinate.mk [26]).indices.map JSNum.int) = .ok [97, 97] ∧
    ([97, 97] : List Nat) ≠ [97, 97, 97] := by decide

/-- Claim C1 (amended): for every token s accepted by parse in which every
maximal letter run is at most two characters long (no three consecutive
letters of the same case), formatting the parsed indices reproduces s
exactly. The parser additionally accepts tokens whose letter runs have three
or more characters, decoding them from their first two letters only, and
those tokens do not round-trip. -/
theorem format_parse_roundtrip (s : List Nat) (c : Coordinate)
    (hacc : parse s = .ok c) (hshort : shortLetterRuns s = true) :
    format (c.indices.map JSNum.int) = .ok s := by
  rcases parse_ok_decomp hacc with
    ⟨r1, hr1, hs, hlo1, hmax1, hidx⟩ |
    ⟨r1, r2, hr1, hr2, hs, hlo1, hmax1, hlo2, hmax2, hidx⟩ |
    ⟨r1, r2, r3, hr1, hr2, hr3, hs, hlo1, hmax1, hlo2, hmax2, hlo3, hmax3, hidx⟩
  · rw [hs] at hshort
    rw [hidx, hs]
    unfold format
    rw [make_ok_of_valid (by simp) (by simp)
      (by intro v hv; rcases List.mem_singleton.mp hv with rfl; exact ⟨hlo1, hmax1⟩)]
    simp only [Except.map]
    rw [toString_one]
    have hlen1 : r1.length ≤ 2 := run_le_two_lower (by rwa [List.append_nil]) hr1.2
    rw [encodeToLower_decodeLowercase hr1.2 hr1.1 hlen1]
  · rw [hs] at hshort
    rw [hidx, hs]
    unfold format
    rw [make_ok_of_valid (by simp) (by simp) (by
      intro v hv
      rcases List.mem_cons.mp hv with rfl | hv
      · exact ⟨hlo1, hmax1⟩
      · rcases List.mem_singleton.mp hv with rfl
        exact ⟨hlo2, hmax2⟩)]
    simp only [Except.map]
    rw [toString_two]
    have hlen1 : r1.length ≤ 2 := run_le_two_lower hshort hr1.2
    rw [encodeToLower_decodeLowercase hr1.2 hr1.1 hlen1,
      encodeToNumber_decodeInteger hr2.2.1 hr2.1 hr2.2.2 hmax2]
  · rw [hs] at hshort
    rw [hidx, hs]
    unfold format
    rw [make_ok_of_valid (by simp) (by simp) (by
      intro v hv
      rcases List.mem_cons.mp hv with rfl | hv
      · exact ⟨hlo1, hmax1⟩
      · rcases List.mem_cons.mp hv with rfl | hv
        · exact ⟨hlo2, hmax2⟩
        · rcases List.mem_singleton.mp hv with rfl
          exact ⟨hlo3, hmax3⟩)]
    simp only [Except.map]
    rw [toString_three]
    have hlen1 : r1.length ≤ 2 := run_le_two_lower hshort hr1.2
    have hshort3 : shortLetterRuns (r3 ++ []) = true := by
      rw [List.append_nil]
      exact shortLetterRuns_suffix (shortLetterRuns_suffix hshort)
    have hlen3 : r3.length ≤ 2 := run_le_two_upper hshort3 hr3.2
    rw [encodeToLower_decodeLowercase hr1.2 hr1.1 hlen1,
      encodeToNumber_decodeInteger hr2.2.1 hr2.1 hr2.2.2 hmax2,
      encodeToUpper_decodeUppercase hr3.2 hr3.1 hlen3]

theorem format_parse_roundtrip_witness :
    format ((Coordinate.mk [4, 3]).indices.map JSNum.int) = .ok [101, 52] :=
  format_parse_roundtrip [101, 52] ⟨[4, 3]⟩ (by decide) (by decide)

/-- Claim C2: for every valid Coordinate (1 to 3 indices, each an integer in
[0, 255]), formatting succeeds with the Coordinate serialization, and
parsing that serialization succeeds with an index-wise equal Coordinate. -/
theorem parse_format_roundtrip (c : Coordinate)
    (h1 : 1 ≤ c.indices.length) (h3 : c.indices.length ≤ 3)
    (hv : ∀ v ∈ c.indices, 0 ≤ v ∧ v ≤ 255) :
    format (c.indices.map JSNum.int) = .ok c.toString ∧
    parse c.toString = .ok c := by
  have hne : c.indices ≠ [] := by
    intro hnil
    rw [hnil] at h1
    simp at h1
  constructor
  · unfold format
    rw [make_ok_of_valid hne h3 hv]
    rfl
  · exact parse_toString hne h3 hv

theorem parse_format_roundtrip_witness :
    format ((Coordinate.mk [4, 3]).indices.map JSNum.int) =
      .ok (Coordinate.mk [4, 3]).toString ∧
    parse (Coordinate.mk [4, 3]).toString = .ok (Coordinate.mk [4, 3]) :=
  parse_format_roundtrip ⟨[4, 3]⟩ (by decide) (by decide) (by decide)

/-- Claim C3: constructing a Coordinate (and hence format, which performs the
construction) fails with NO_INDICES when given zero values and with
TOO_MANY_DIMENSIONS when given more than three, fails with
INDEX_OUT_OF_RANGE when the count is in range but some value is not an
integer in [0, 255], succeeds otherwise, and format fails with exactly the
construction failures. -/
theorem coordinate_make_spec (xs : List JSNum) :
    (xs.length = 0 → Coordinate.make xs = .error (.cellError .noIndices)) ∧
    (3 < xs.length → Coordinate.make xs = .error (.cellError .tooManyDimensions)) ∧
    (1 ≤ xs.length → xs.length ≤ 3 →
      (∃ x ∈ xs, ∀ n : Int, x = JSNum.int n → n < 0 ∨ 255 < n) →
      Coordinate.make xs = .error (.cellError .indexOutOfRange)) ∧
    (1 ≤ xs.length → xs.length ≤ 3 →
      (∀ x ∈ xs, ∃ n : Int, x = JSNum.int n ∧ 0 ≤ n ∧ n ≤ 255) →
      ∃ c : Coordinate, Coordinate.make xs = .ok c) ∧
    (∀ e : JSError, Coordinate.make xs = .error e ↔ format xs = .error e) := by
  refine ⟨?_, ?_, ?_, ?_, ?_⟩
  · intro h0
    unfold Coordinate.make
    rw [if_pos h0]
  · intro h3
    unfold Coordinate.make
    rw [if_neg (by omega), if_pos (by simpa [MAX_DIMENSIONS] using h3)]
  · rintro hl hu ⟨x, hx, hbad⟩
    have hfail : ¬ (xs.all isValidIndex = true) := by
      simp only [List.all_eq_true]
      intro hall
      have hvx := hall x hx
      cases x with
      | int n =>
        have hb := hbad n rfl
        simp only [isValidIndex, MAX_INDEX_VALUE, Bool.and_eq_true, decide_eq_true_eq] at hvx
        omega
      | nonIntegral => simp [isValidIndex] at hvx
    unfold Coordinate.make
    rw [if_neg (by omega), if_neg (by simp only [MAX_DIMENSIONS]; omega), if_neg hfail]
  · intro hl hu hgood
    have hok : xs.all isValidIndex = true := by
      simp only [List.all_eq_true]
      intro x hx
      obtain ⟨n, rfl, hn0, hn255⟩ := hgood x hx
      simp only [isValidIndex, MAX_INDEX_VALUE, Bool.and_eq_true, decide_eq_true_eq]
      exact ⟨hn0, hn255⟩
    unfold Coordinate.make
    rw [if_neg (by omega), if_neg (by simp only [MAX_DIMENSIONS]; omega), if_pos hok]
    exact ⟨_, rfl⟩
  · intro e
    unfold format
    cases hm : Coordinate.make xs with
    | ok c => simp [Except.map]
    | error e2 => simp [Except.map]

theorem coordinate_make_spec_witness :
    ∃ c : Coordinate, Coordinate.make [JSNum.int 4, JSNum.int 3] = .ok c :=
  (coordinate_make_spec [JSNum.int 4, JSNum.int 3]).2.2.2.1 (by decide) (by decide) (by
    intro x hx
    rcases List.mem_cons.mp hx with rfl | hx
    · exact ⟨4, rfl, by decide, by decide⟩
    · rcases List.mem_singleton.mp hx with rfl
      exact ⟨3, rfl, by decide, by decide⟩)

/-- Claim C4: serialization selects the alphabet of dimension position p by
p mod 3 (lowercase, then 1-based decimal, then uppercase, visible below for
the three supported positions); a letter-alphabet index v below 26 is the
single letter base + v, an index in [26, 255] is the two letters
base + (v-26)/26 and base + (v-26)%26; and format(4,3) = "e4",
format(0,0,0) = "a1A", format(255,255,255) = "iv256IV". -/
theorem encoding_scheme_spec :
    (∀ a : Int, Coordinate.toString ⟨[a]⟩ = encodeToLower a) ∧
    (∀ a b : Int, Coordinate.toString ⟨[a, b]⟩ = encodeToLower a ++ encodeToNumber b) ∧
    (∀ a b c : Int, Coordinate.toString ⟨[a, b, c]⟩ =
      encodeToLower a ++ (encodeToNumber b ++ encodeToUpper c)) ∧
    (∀ v : Nat, v < 26 →
      encodeToLower (v : Int) = [97 + v] ∧ encodeToUpper (v : Int) = [65 + v]) ∧
    (∀ v : Nat, v < 256 → 26 ≤ v →
      encodeToLower (v : Int) = [97 + (v - 26) / 26, 97 + (v - 26) % 26] ∧
      encodeToUpper (v : Int) = [65 + (v - 26) / 26, 65 + (v - 26) % 26]) ∧
    format [JSNum.int 4, JSNum.int 3] = .ok [101, 52] ∧
    format [JSNum.int 0, JSNum.int 0, JSNum.int 0] = .ok [97, 49, 65] ∧
    format [JSNum.int 255, JSNum.int 255, JSNum.int 255] =
      .ok [105, 118, 50, 53, 54, 73, 86] := by
  refine ⟨toString_one, toString_two, toString_three, by decide, by decide,
    by decide, by decide, by decide⟩

theorem encoding_scheme_spec_witness :
    encodeToLower ((4 : Nat) : Int) = [97 + 4] ∧
    encodeToUpper ((255 : Nat) : Int) = [65 + (255 - 26) / 26, 65 + (255 - 26) % 26] :=
  ⟨(encoding_scheme_spec.2.2.2.1 4 (by decide)).1,
   (encoding_scheme_spec.2.2.2.2.1 255 (by decide) (by decide)).2⟩

/-- Claim C5: whenever the parse loop — entered as parse enters it, on a
nonempty input in the lowercase state with no collected indices — completes
without a failure, the collected index list satisfies every Coordinate
construction invariant (length in [1, 3], each value an integer in
[0, 255]), so the construction at the end of parse succeeds. -/
theorem parse_indices_valid (s : List Nat) (idx : List Int) (hne : s ≠ [])
    (h : parseLoop (MAX_DIMENSIONS + 1) s .Lowercase [] = .ok idx) :
    1 ≤ idx.length ∧ idx.length ≤ 3 ∧ (∀ v ∈ idx, 0 ≤ v ∧ v ≤ 255) ∧
    Coordinate.make (idx.map JSNum.int) = .ok ⟨idx⟩ := by
  obtain ⟨b1, b2, b3, b4⟩ := parseLoop_ok_invariant (MAX_DIMENSIONS + 1) s .Lowercase [] idx h
    (by intro v hv; cases hv) (by simp)
  have hlen1 : 1 ≤ idx.length := by
    have hgt := b4 hne
    simpa using hgt
  have hne2 : idx ≠ [] := by
    intro hnil
    rw [hnil] at hlen1
    simp at hlen1
  exact ⟨hlen1, b2, b1, make_ok_of_valid hne2 b2 b1⟩

theorem parse_indices_valid_witness :
    1 ≤ ([4, 3] : List Int).length ∧ ([4, 3] : List Int).length ≤ 3 ∧
    (∀ v ∈ ([4, 3] : List Int), 0 ≤ v ∧ v ≤ 255) ∧
    Coordinate.make (([4, 3] : List Int).map JSNum.int) = .ok ⟨[4, 3]⟩ :=
  parse_indices_valid [101, 52] [4, 3] (by decide) (by decide)

/-- Claim C6, counterexample: the claim is false as stated. The string
"a1A" followed by the control character 0 contains a character outside every
class, yet parse fails with TOO_MANY_DIMENSIONS, not UNEXPECTED_CHARACTER or
INVALID_START. -/
theorem nonclass_error_counterexample :
    (isLowercase 0 = false ∧ isDigit 0 = false ∧ isUppercase 0 = false) ∧
    (0 : Nat) ∈ ([97, 49, 65, 0] : List Nat) ∧
    parse [97, 49, 65, 0] = .error (.cellError .tooManyDimensions) ∧
    ErrorMsg.tooManyDimensions ≠ ErrorMsg.unexpectedCharacter ∧
    ErrorMsg.tooManyDimensions ≠ ErrorMsg.invalidStart := by decide

/-- Claim C6 (amended): parse never accepts a string containing a character
outside the three classes a-z, 0-9 and A-Z (in particular no non-ASCII
lookalike, zero-width or control character); when the first character of a
string of accepted length is not lowercase the failure is INVALID_START; but
the failure reported for a string whose later characters are outside every
class may be a different one (length, leading-zero, range or dimension
checks can fire before the scan reaches the offending character). -/
theorem parse_rejects_nonclass (s : List Nat) (ch : Nat) (hmem : ch ∈ s)
    (hbad : isLowercase ch = false ∧ isDigit ch = false ∧ isUppercase ch = false) :
    (∃ e, parse s = .error e) ∧
    (s.length ≤ 7 → isLowercase (s.headD 0) = false →
      parse s = .error (.cellError .invalidStart)) := by
  constructor
  · cases hp : parse s with
    | error e => exact ⟨e, rfl⟩
    | ok c =>
      exfalso
      rcases parse_ok_decomp hp with
        ⟨r1, hr1, hs, _⟩ | ⟨r1, r2, hr1, hr2, hs, _⟩ | ⟨r1, r2, r3, hr1, hr2, hr3, hs, _⟩
      · subst hs
        exact absurd (hr1.2 ch hmem) (by simp [hbad.1])
      · subst hs
        rcases List.mem_append.mp hmem with hm | hm
        · exact absurd (hr1.2 ch hm) (by simp [hbad.1])
        · exact absurd (hr2.2.1 ch hm) (by simp [hbad.2.1])
      · subst hs
        rcases List.mem_append.mp hmem with hm | hm
        · exact absurd (hr1.2 ch hm) (by simp [hbad.1])
        · rcases List.mem_append.mp hm with hm2 | hm2
          · exact absurd (hr2.2.1 ch hm2) (by simp [hbad.2.1])
          · exact absurd (hr3.2 ch hm2) (by simp [hbad.2.2])
  · intro h7 hhead
    have hne : s ≠ [] := by
      rintro rfl
      cases hmem
    unfold parse
    rw [if_neg (by simpa [List.length_eq_zero] using hne),
      if_neg (by simp only [MAX_STRING_LENGTH]; omega), if_pos hhead]

theorem parse_rejects_nonclass_witness :
    (∃ e, parse [97, 33] = .error e) ∧
    (([97, 33] : List Nat).length ≤ 7 →
      isLowercase (([97, 33] : List Nat).headD 0) = false →
      parse [97, 33] = .error (.cellError .invalidStart)) :=
  parse_rejects_nonclass [97, 33] 33 (by decide) (by decide)

/-- Claim C7: once three dimensions have been decoded, any remaining input
makes the loop fail with TOO_MANY_DIMENSIONS before the next run is read:
the error does not depend on the remaining characters, on the expected
alphabet, or on the fuel; in particular parse("a1Aa") fails this way. -/
theorem dimension_limit_before_fourth_run :
    (∀ (fuel : Nat) (a : Nat) (t : List Nat) (ty : DimensionType) (acc : List Int),
      3 ≤ acc.length →
      parseLoop fuel (a :: t) ty acc = .error (.cellError .tooManyDimensions)) ∧
    parse [97, 49, 65, 97] = .error (.cellError .tooManyDimensions) :=
  ⟨parseLoop_full, by decide⟩

theorem dimension_limit_before_fourth_run_witness :
    parseLoop 4 [97] .Lowercase [0, 0, 0] = .error (.cellError .tooManyDimensions) :=
  dimension_limit_before_fourth_run.1 4 97 [] .Lowercase [0, 0, 0] (by decide)

/-- Claim C8: validate succeeds exactly when parse succeeds and propagates
exactly the same failure as parse on invalid input; isValid is a total
Boolean, true exactly when parse succeeds and false exactly when parse
fails, exposing no underlying failure. -/
theorem validate_isValid_spec (s : List Nat) :
    (∀ e, validate s = .error e ↔ parse s = .error e) ∧
    ((∃ u, validate s = .ok u) ↔ ∃ c, parse s = .ok c) ∧
    (isValid s = true ↔ ∃ c, parse s = .ok c) ∧
    (isValid s = false ↔ ∃ e, parse s = .error e) := by
  cases hp : parse s with
  | ok c => refine ⟨?_, ?_, ?_, ?_⟩ <;> simp [validate, isValid, hp, Except.map]
  | error e => refine ⟨?_, ?_, ?_, ?_⟩ <;> simp [validate, isValid, hp, Except.map]

theorem validate_isValid_spec_witness :
    isValid [101, 52] = true ↔ ∃ c, parse [101, 52] = .ok c :=
  (validate_isValid_spec [101, 52]).2.2.1

/-- Claim C10: at(i) succeeds exactly on the i-th stored index when i is an
integer with 0 ≤ i < dimensions, and throws RangeError — a different error
from every CellError — when i is negative, at least dimensions, or not an
integer. -/
theorem coordinate_at_spec (c : Coordinate) (i : JSNum) :
    (∀ (n : Int) (x : Int), i = JSNum.int n → 0 ≤ n → n < (c.dimensions : Int) →
      (Coordinate.at c i = .ok x ↔ c.indices.get? n.toNat = some x)) ∧
    ((i = JSNum.nonIntegral ∨
        ∃ n : Int, i = JSNum.int n ∧ (n < 0 ∨ (c.dimensions : Int) ≤ n)) →
      Coordinate.at c i = .error .rangeError) ∧
    (∀ m : ErrorMsg, (JSError.rangeError : JSError) ≠ .cellError m) := by
  refine ⟨?_, ?_, by intro m hcontra; cases hcontra⟩
  · intro n x hi h0 hlen
    subst hi
    simp only [Coordinate.dimensions] at hlen
    unfold Coordinate.at
    rw [if_neg (by simp [JSNum.isInteger])]
    rw [if_neg (by simp only [JSNum.toInt]; omega)]
    have hlt : n.toNat < c.indices.length := by omega
    cases hg : c.indices.get? n.toNat with
    | none =>
      rw [List.get?_eq_none] at hg
      omega
    | some y =>
      rw [List.getD_eq_get?]
      simp only [JSNum.toInt, hg, Option.getD_some]
      constructor
      · intro hok
        cases hok
        rfl
      · intro hy
        cases hy
        rfl
  · intro hcase
    rcases hcase with rfl | ⟨n, rfl, hn⟩
    · simp [Coordinate.at, JSNum.isInteger]
    · simp only [Coordinate.dimensions] at hn
      unfold Coordinate.at
      rw [if_neg (by simp [JSNum.isInteger])]
      rw [if_pos (by simp only [JSNum.toInt]; omega)]

theorem coordinate_at_spec_witness :
    Coordinate.at ⟨[4, 3]⟩ (JSNum.int 1) = .ok 3 ∧
    Coordinate.at ⟨[4, 3]⟩ JSNum.nonIntegral = .error .rangeError :=
  ⟨((coordinate_at_spec ⟨[4, 3]⟩ (JSNum.int 1)).1 1 3 rfl (by decide) (by decide)).mpr
      (by decide),
   (coordinate_at_spec ⟨[4, 3]⟩ JSNum.nonIntegral).2.1 (Or.inl rfl)⟩

end Cell
